import Mathlib

/-!
Verification of the text-parsing and log-relay core of the ADB-over-HTTP
bridge (`src/public/webadb.js`).  The JavaScript string operations
(`String.prototype.split` with the regexes `/\r?\n/`, `/\s+/`, `':'`,
`String.prototype.trim`, `RegExp.prototype.test` / `String.prototype.match`
for the concrete regexes used by the source) are shallowly embedded as
executable functions on `List Char`, and the parsers `parseDevicesList`,
`parsePackageList`, `parseDumpsysPackage`, the command wrapper `adbCmd`
and the SSE log relay handlers are translated from the source on top of
them.
-/

namespace WebAdb

/-- The JavaScript `\s` character class (as used by `split(/\s+/)`,
`trim()` and `\s*`): ASCII whitespace plus the Unicode space characters. -/
def wsChar (c : Char) : Bool :=
  c = ' ' || c = '\t' || c = '\n' || c = '\r' ||
  c.toNat = 0x0b || c.toNat = 0x0c || c.toNat = 0xa0 || c.toNat = 0x1680 ||
  (0x2000 ≤ c.toNat && c.toNat ≤ 0x200a) ||
  c.toNat = 0x2028 || c.toNat = 0x2029 || c.toNat = 0x202f || c.toNat = 0x205f ||
  c.toNat = 0x3000 || c.toNat = 0xfeff

/-- The JavaScript `.` regex class (no `s` flag): any character except the
line terminators `\n`, `\r`, U+2028, U+2029. -/
def jsDot (c : Char) : Bool :=
  !(c = '\n' || c = '\r' || c.toNat = 0x2028 || c.toNat = 0x2029)

/-- JavaScript `String.prototype.trim`: drop `\s` characters from both ends. -/
def jsTrim (l : List Char) : List Char :=
  ((l.dropWhile wsChar).reverse.dropWhile wsChar).reverse

/-- Worker for `split(/\r?\n/)`: `acc` is the reversed current field;
a separator is `\r\n` or a bare `\n` (a bare `\r` stays in the field). -/
def splitLinesAux : List Char → List Char → List (List Char)
  | [], acc => [acc.reverse]
  | '\r' :: '\n' :: cs, acc => acc.reverse :: splitLinesAux cs []
  | '\n' :: cs, acc => acc.reverse :: splitLinesAux cs []
  | c :: cs, acc => splitLinesAux cs (c :: acc)
  termination_by structural l _ => l

/-- JavaScript `text.split(/\r?\n/)`. -/
def splitLines (l : List Char) : List (List Char) := splitLinesAux l []

/-- Worker for `split(/\s+/)`: each maximal whitespace run separates two
fields (a leading or trailing run produces an empty field, as in JS);
`some acc` holds the reversed current field, `none` means the scanner is
inside a whitespace run. -/
def splitWsAux : List Char → Option (List Char) → List (List Char)
  | [], none => [[]]
  | [], some acc => [acc.reverse]
  | c :: cs, none => if wsChar c then splitWsAux cs none else splitWsAux cs (some [c])
  | c :: cs, some acc =>
    if wsChar c then acc.reverse :: splitWsAux cs none
    else splitWsAux cs (some (c :: acc))

/-- JavaScript `text.split(/\s+/)`. -/
def splitWs (l : List Char) : List (List Char) := splitWsAux l (some [])

/-- Worker for `split(sep)` with a single-character separator. -/
def splitCharAux (sep : Char) : List Char → List Char → List (List Char)
  | [], acc => [acc.reverse]
  | c :: cs, acc =>
    if c = sep then acc.reverse :: splitCharAux sep cs []
    else splitCharAux sep cs (c :: acc)

/-- JavaScript `text.split(':')` and friends. -/
def splitChar (sep : Char) (l : List Char) : List (List Char) :=
  splitCharAux sep l []

/-- JavaScript `Array.prototype.join(' ')`. -/
def joinSp : List (List Char) → List Char
  | [] => []
  | [t] => t
  | t :: ts => t ++ ' ' :: joinSp ts

/-- Index of the first occurrence of `pat` in `s` (regex-engine scanning:
try every position left to right). -/
def firstIndexOf (pat : List Char) : List Char → Option Nat
  | [] => if pat.isPrefixOf ([] : List Char) then some 0 else none
  | s@(_ :: cs) =>
    if pat.isPrefixOf s then some 0 else (firstIndexOf pat cs).map (· + 1)

/-- `s.includes(pat)` / `RegExp.test` for a literal pattern. -/
def containsL (pat s : List Char) : Bool := (firstIndexOf pat s).isSome

/-- The suffix of `s` after the first occurrence of `pat`, if any. -/
def dropAfterFirst (pat : List Char) : List Char → Option (List Char)
  | [] => if pat.isPrefixOf ([] : List Char) then some ([].drop pat.length) else none
  | s@(_ :: cs) =>
    if pat.isPrefixOf s then some (s.drop pat.length) else dropAfterFirst pat cs

/-- First match of the regex `label(cls+)`: scan left to right; at a
position where the literal `label` matches and is followed by at least one
`cls` character, capture the maximal (greedy) `cls` run. -/
def scanLabel (label : List Char) (cls : Char → Bool) : List Char → Option (List Char)
  | [] => none
  | s@(_ :: cs) =>
    if label.isPrefixOf s then
      let run := (s.drop label.length).takeWhile cls
      if run.isEmpty then scanLabel label cls cs else some run
    else scanLabel label cls cs

/-- `(text.match(re)||[])[1] || ''` for the field regexes of
`parseDumpsysPackage` (`re` = `label` followed by a one-or-more class). -/
def getField (label : List Char) (cls : Char → Bool) (cs : List Char) : String :=
  match scanLabel label cls cs with
  | some run => String.mk run
  | none => ""

/-- Does `/pkgFlags=\[.*?HAS_CODE.*?\]/` match `s`?  A match exists iff at
some position the literal `pkgFlags=[` is followed — within the maximal
run of `.`-matching characters — by `HAS_CODE` and then a `]`. -/
def pkgFlagsHasCode : List Char → Bool
  | [] => false
  | s@(_ :: cs) =>
    (if "pkgFlags=[".toList.isPrefixOf s then
      let seg := (s.drop "pkgFlags=[".toList.length).takeWhile jsDot
      match dropAfterFirst "HAS_CODE".toList seg with
      | some rest => rest.contains ']'
      | none => false
     else false) || pkgFlagsHasCode cs

/-- The two-newline terminator required by the section regexes
`/requested permissions:\s*([\s\S]*?)\n\n/` and
`/grantedPermissions:\s*([\s\S]*?)\n\n/`. -/
def nlnl : List Char := ['\n', '\n']

/-- The captured group of `\s*([\s\S]*?)\n\n` against `rest` (the text
after the section label): the greedy `\s*` takes the maximal whitespace
run it can while still leaving a `\n\n` ahead for the lazy group, and the
lazy group stops at the first `\n\n` after it. -/
def sectionGroup (rest : List Char) : Option (List Char) :=
  match firstIndexOf nlnl (rest.drop (rest.takeWhile wsChar).length) with
  | some i => some ((rest.drop (rest.takeWhile wsChar).length).take i)
  | none => if containsL nlnl rest then some ([] : List Char) else none

/-- First match of `label\s*([\s\S]*?)\n\n` in `s`: scan positions left to
right; a position matches when `label` is a prefix there and a `\n\n`
occurs in the remainder. -/
def findSection (label : List Char) : List Char → Option (List Char)
  | [] => none
  | s@(_ :: cs) =>
    if label.isPrefixOf s then
      match sectionGroup (s.drop label.length) with
      | some g => some g
      | none => findSection label cs
    else findSection label cs

/-! ## The device-list parser (`parseDevicesList`, webadb.js:117-133) -/

/-- A JavaScript object with string keys and values, in insertion order. -/
abbrev JsObj := List (String × String)

/-- Property lookup on a `JsObj`. -/
def jsGet : JsObj → String → Option String
  | [], _ => none
  | p :: rest, k => if p.1 == k then some p.2 else jsGet rest k

/-- Property assignment `o[k] = v`: an existing key keeps its position and
gets the new value; a new key is appended. -/
def jsSet : JsObj → String → String → JsObj
  | [], k, v => [(k, v)]
  | p :: rest, k, v => if p.1 == k then (k, v) :: rest else p :: jsSet rest k v

/-- The body of `for (const m of infoStr.split(/\s+/))`: split the token on
`':'`; if the second part exists and is nonempty, assign `info[k] = v`. -/
def devTokenStep (o : JsObj) (m : List Char) : JsObj :=
  match splitChar ':' m with
  | k :: v :: _ => if v.isEmpty then o else jsSet o (String.mk k) (String.mk v)
  | _ => o

/-- One iteration of the line loop of `parseDevicesList`:
skip the header line, split on whitespace into `serial`, `state` and the
rest, skip the line if either is missing, then fold the `key:value`
tokens of `rest.join(' ')` into the record. -/
def parseDeviceLine (l : List Char) : Option JsObj :=
  if "List of devices attached".toList.isPrefixOf l then none
  else
    match splitWs l with
    | [] => none
    | [_] => none
    | serial :: state :: rest =>
      if serial.isEmpty || state.isEmpty then none
      else
        some ((splitWs (joinSp rest)).foldl devTokenStep
          [("serial", String.mk serial), ("state", String.mk state)])

/-- `parseDevicesList(text)` (webadb.js:117-133). -/
def parseDevicesList (text : String) : List JsObj :=
  (((splitLines text.toList).map jsTrim).filter (fun l => !l.isEmpty)).filterMap
    parseDeviceLine

/-! ## The package parsers (webadb.js:272-299) -/

/-- The JavaScript `\w` class. -/
def wordChar (c : Char) : Bool := c.isAlphanum || c = '_'

/-- The `[\w.]` class of `parsePackageList`. -/
def wordDotChar (c : Char) : Bool := wordChar c || c = '.'

/-- The `[\w.\-+]` class of the `versionName` regex. -/
def versionNameChar (c : Char) : Bool := wordDotChar c || c = '-' || c = '+'

structure PackageRecord where
  package : String
deriving DecidableEq

/-- One line against `/^package:([\w.]+)(?:=.*)?$/`: the line must start
with `package:`, the maximal `[\w.]` run after it must be nonempty, and
what follows must be empty or an `=` followed by `.`-matching characters
up to the end of the line. -/
def parsePackageLine (l : List Char) : Option PackageRecord :=
  if "package:".toList.isPrefixOf l then
    let rest := l.drop "package:".toList.length
    let name := rest.takeWhile wordDotChar
    let t := rest.drop name.length
    if !name.isEmpty && (t.isEmpty || (t.head? == some '=' && (t.drop 1).all jsDot)) then
      some ⟨String.mk name⟩
    else none
  else none

/-- `parsePackageList(text)` (webadb.js:272-279). -/
def parsePackageList (text : String) : List PackageRecord :=
  (splitLines text.toList).filterMap parsePackageLine

structure PackageDetails where
  versionName : String
  versionCode : String
  appId : String
  userId : String
  enabled : Option Bool
  requested : List String
  granted : List String
deriving DecidableEq

/-- `parseDumpsysPackage(text)` (webadb.js:280-299). -/
def parseDumpsysPackage (text : String) : PackageDetails where
  versionName := getField "versionName=".toList versionNameChar text.toList
  versionCode := getField "versionCode=".toList Char.isDigit text.toList
  appId := getField "appId=".toList Char.isDigit text.toList
  userId := getField "userId=".toList Char.isDigit text.toList
  enabled :=
    if containsL "enabled=true".toList text.toList || pkgFlagsHasCode text.toList then
      some true
    else if containsL "enabled=false".toList text.toList then some false
    else none
  requested :=
    match findSection "requested permissions:".toList text.toList with
    | some g =>
      (((splitLines g).map jsTrim).filter
        (fun s => !s.isEmpty && !containsL "granted=true".toList s)).map
          (fun l => String.mk l)
    | none => []
  granted :=
    match findSection "grantedPermissions:".toList text.toList with
    | some g =>
      (((splitLines g).map jsTrim).filter (fun s => !s.isEmpty)).map
        (fun l => String.mk l)
    | none => []

/-! ## The command runner (`adbCmd`, webadb.js:108-115) -/

/-- The resolved value of a successful `execa` call. -/
structure ExecaSuccess where
  stdout : String
  stderr : String
  exitCode : Int
deriving DecidableEq

/-- The rejection value of a failed `execa` call; fields that may be
`undefined` (launch failure, no exit code) are `Option`s. -/
structure ExecaFailure where
  shortMessage : Option String
  message : String
  exitCode : Option Int
  stdout : Option String
  stderr : Option String
deriving DecidableEq

/-- The object `adbCmd` returns; absent JavaScript properties are `none`. -/
structure CommandResult where
  ok : Bool
  stdout : Option String
  stderr : Option String
  error : Option String
  code : Option Int
deriving DecidableEq

/-- `adbCmd` (webadb.js:108-115), as a function of the `execa` outcome:
on success it returns `{ ok: true, stdout }` and nothing else; on failure
it returns `{ ok: false, error, code, stdout, stderr }` with
`error = e.shortMessage || e.message`. -/
def adbCmd : Except ExecaFailure ExecaSuccess → CommandResult
  | .ok r => { ok := true, stdout := some r.stdout, stderr := none,
               error := none, code := none }
  | .error e =>
    { ok := false
      stdout := e.stdout
      stderr := e.stderr
      error := some (match e.shortMessage with
        | some s => if s = "" then e.message else s
        | none => e.message)
      code := e.exitCode }

/-! ## The log relay (`/api/logcat` handlers, webadb.js:241-251) -/

/-- Which pipe a chunk or event came from. -/
inductive Src
  | out
  | err
deriving DecidableEq

/-- `line.replace(/\r?\n/g, '\n')` inside `send`. -/
def replaceNl : List Char → List Char
  | [] => []
  | '\r' :: '\n' :: cs => '\n' :: replaceNl cs
  | '\n' :: cs => '\n' :: replaceNl cs
  | c :: cs => c :: replaceNl cs

/-- The text `send(line)` writes to the response stream. -/
def sseWrite (line : List Char) : List Char :=
  "data: ".toList ++ replaceNl line ++ "\n\n".toList

/-- The events emitted for one `data` chunk: the chunk is split on
`/\r?\n/`, empty lines are dropped, and each remaining line is sent —
with `"[stderr] "` prepended for the stderr handler. -/
def chunkEvents : Src × List Char → List (Src × List Char)
  | (Src.out, c) =>
    ((splitLines c).filter (fun l => !l.isEmpty)).map (fun ln => (Src.out, ln))
  | (Src.err, c) =>
    ((splitLines c).filter (fun l => !l.isEmpty)).map
      (fun ln => (Src.err, "[stderr] ".toList ++ ln))

/-- The event sequence the relay emits for a trace of arriving chunks. -/
def relayEvents : List (Src × List Char) → List (Src × List Char)
  | [] => []
  | p :: tr => chunkEvents p ++ relayEvents tr

/-- The bytes actually written to the SSE response for a chunk trace. -/
def relayWire (tr : List (Src × List Char)) : List (List Char) :=
  (relayEvents tr).map (fun e => sseWrite e.2)

/-! ## Basic lemmas about the string helpers -/

theorem firstIndexOf_append_none {pat u r : List Char}
    (h : firstIndexOf pat (u ++ r) = none) : firstIndexOf pat r = none := by
  induction u with
  | nil => exact h
  | cons c u ih =>
    simp only [List.cons_append, firstIndexOf] at h
    split at h
    · exact absurd h (by simp)
    · exact ih (by simpa using h)

theorem firstIndexOf_extend_none {pat ext s : List Char}
    (h : firstIndexOf pat s = none) : firstIndexOf (pat ++ ext) s = none := by
  induction s with
  | nil =>
    simp only [firstIndexOf] at h ⊢
    split at h
    · exact absurd h (by simp)
    · split
      · next hpre =>
        rename_i hne
        exact absurd (List.isPrefixOf_iff_prefix.mpr
          ((List.prefix_append pat ext).trans (List.isPrefixOf_iff_prefix.mp hpre))) hne
      · rfl
  | cons c s ih =>
    simp only [firstIndexOf] at h ⊢
    split at h
    · exact absurd h (by simp)
    · next hne =>
      split
      · next hpre =>
        exact absurd (List.isPrefixOf_iff_prefix.mpr
          ((List.prefix_append pat ext).trans (List.isPrefixOf_iff_prefix.mp hpre))) hne
      · have h4 : firstIndexOf pat s = none := by simpa using h
        simp [ih h4]

theorem containsL_extend_false {pat ext s : List Char}
    (h : containsL pat s = false) : containsL (pat ++ ext) s = false := by
  have h' : firstIndexOf pat s = none := by simpa [containsL] using h
  simp [containsL, firstIndexOf_extend_none h']

theorem dropAfterFirst_min {pat s r : List Char}
    (h : dropAfterFirst pat s = some r) :
    ∀ p q, s = p ++ pat ++ q → ∃ u, r = u ++ q := by
  induction s with
  | nil =>
    intro p q hpq
    have hlen := congrArg List.length hpq
    simp only [List.length_nil, List.length_append] at hlen
    have hq : q = [] := List.eq_nil_of_length_eq_zero (by omega)
    exact ⟨r, by simp [hq]⟩
  | cons c s ih =>
    intro p q hpq
    simp only [dropAfterFirst] at h
    split at h
    · next hpre =>
      simp only [Option.some_inj] at h
      subst h
      cases p with
      | nil =>
        refine ⟨[], ?_⟩
        simp only [List.nil_append] at hpq
        rw [hpq, List.drop_left]
        simp
      | cons d p' =>
        refine ⟨(d :: p' ++ pat).drop pat.length, ?_⟩
        have h2 : c :: s = (d :: p' ++ pat) ++ q := by simpa using hpq
        rw [h2, List.drop_append_of_le_length (by simp; omega)]
    · next hpre =>
      cases p with
      | nil =>
        exact absurd (List.isPrefixOf_iff_prefix.mpr ⟨q, by simpa using hpq.symm⟩) hpre
      | cons d p' =>
        have h2 : s = p' ++ pat ++ q := by
          have h3 := hpq
          simp only [List.cons_append, List.cons.injEq] at h3
          exact h3.2
        exact ih h p' q h2

theorem sectionGroup_none {rest : List Char}
    (h : firstIndexOf nlnl rest = none) : sectionGroup rest = none := by
  have h1 : firstIndexOf nlnl (rest.drop (rest.takeWhile wsChar).length) = none := by
    apply firstIndexOf_append_none (u := rest.take (rest.takeWhile wsChar).length)
    rw [List.take_append_drop]
    exact h
  simp [sectionGroup, h1, containsL, h]

theorem findSection_none {label cs : List Char}
    (h : ∀ p q, cs = p ++ label ++ q → firstIndexOf nlnl q = none) :
    findSection label cs = none := by
  induction cs with
  | nil => simp [findSection]
  | cons c cs ih =>
    simp only [findSection]
    split
    · next hpre =>
      obtain ⟨t, ht⟩ := List.isPrefixOf_iff_prefix.mp hpre
      have hq : firstIndexOf nlnl t = none := h [] t (by simp [← ht])
      have hdrop : (c :: cs).drop label.length = t := by rw [← ht, List.drop_left]
      rw [hdrop, sectionGroup_none hq]
      exact ih (fun p q hpq => h (c :: p) q (by simp [hpq]))
    · exact ih (fun p q hpq => h (c :: p) q (by simp [hpq]))

/-! ## C10: sections are extracted only when a blank line follows -/

/-- C10 — In `parseDumpsysPackage`, a `requested permissions:` or
`grantedPermissions:` section is extracted only if two consecutive
newlines occur somewhere after the header; if the header is present but
no `\n\n` follows it, the corresponding permission list is empty. -/
theorem section_requires_blank_line (text : String) :
    (∀ rest, dropAfterFirst "requested permissions:".toList text.toList = some rest →
      firstIndexOf nlnl rest = none → (parseDumpsysPackage text).requested = []) ∧
    (∀ rest, dropAfterFirst "grantedPermissions:".toList text.toList = some rest →
      firstIndexOf nlnl rest = none → (parseDumpsysPackage text).granted = []) := by
  constructor
  · intro rest hd hn
    have hfs : findSection "requested permissions:".toList text.toList = none := by
      apply findSection_none
      intro p q hpq
      obtain ⟨u, hu⟩ := dropAfterFirst_min hd p q hpq
      rw [hu] at hn
      exact firstIndexOf_append_none hn
    simp only [parseDumpsysPackage]
    rw [hfs]
  · intro rest hd hn
    have hfs : findSection "grantedPermissions:".toList text.toList = none := by
      apply findSection_none
      intro p q hpq
      obtain ⟨u, hu⟩ := dropAfterFirst_min hd p q hpq
      rw [hu] at hn
      exact firstIndexOf_append_none hn
    simp only [parseDumpsysPackage]
    rw [hfs]

/-- Witness for C10 at concrete inputs: a header present with the section
running to end of input yields an empty permission list. -/
theorem section_requires_blank_line_witness :
    (parseDumpsysPackage "requested permissions:\n  android.permission.CAMERA").requested = [] ∧
    (parseDumpsysPackage "grantedPermissions:\n  android.permission.CAMERA").granted = [] := by
  constructor
  · exact (section_requires_blank_line "requested permissions:\n  android.permission.CAMERA").1
      "\n  android.permission.CAMERA".toList (by decide) (by decide)
  · exact (section_requires_blank_line "grantedPermissions:\n  android.permission.CAMERA").2
      "\n  android.permission.CAMERA".toList (by decide) (by decide)

/-! ## C5: the command runner's success shape -/

/-- C5 counterexample — on a normal exit with code 0 the runner does
*not* capture stderr and does *not* report `exitCode = 0`: the success
object is `{ ok: true, stdout }` only. -/
theorem adbCmd_success_counterexample :
    (adbCmd (Except.ok ⟨"ok-out", "warn", 0⟩)).ok = true ∧
    (adbCmd (Except.ok ⟨"ok-out", "warn", 0⟩)).stdout = some "ok-out" ∧
    (adbCmd (Except.ok ⟨"ok-out", "warn", 0⟩)).stderr ≠ some "warn" ∧
    (adbCmd (Except.ok ⟨"ok-out", "warn", 0⟩)).code ≠ some 0 := by
  refine ⟨rfl, rfl, by simp [adbCmd], by simp [adbCmd]⟩

/-- C5 amended — on a subprocess that exits normally, `adbCmd` returns
`ok = true` with `stdout` captured as text, and leaves `stderr`, the exit
code and the error message absent. -/
theorem adbCmd_success_amended (r : ExecaSuccess) :
    adbCmd (Except.ok r) =
      { ok := true, stdout := some r.stdout, stderr := none,
        error := none, code := none } := rfl

/-! ## C3: versionName / enabled extraction -/

/-- C3 counterexample — a text that contains the substring
`versionName=1.2.3` and no `enabled=` token, yet parses to a different
`versionName` (the greedy class run extends past `1.2.3`) and a non-null
`enabled` (the `pkgFlags=[...HAS_CODE...]` alternative fires). -/
theorem versionName_enabled_counterexample :
    containsL "versionName=1.2.3".toList
      "versionName=1.2.34 pkgFlags=[ HAS_CODE ]".toList = true ∧
    containsL "enabled=".toList
      "versionName=1.2.34 pkgFlags=[ HAS_CODE ]".toList = false ∧
    (parseDumpsysPackage "versionName=1.2.34 pkgFlags=[ HAS_CODE ]").versionName ≠ "1.2.3" ∧
    (parseDumpsysPackage "versionName=1.2.34 pkgFlags=[ HAS_CODE ]").enabled ≠ none := by
  refine ⟨by decide, by decide, by decide, by decide⟩

/-- C3 amended — for every text whose *first* `versionName=` label match
captures exactly `1.2.3`, and which contains neither an `enabled=`
substring nor a `pkgFlags=[...HAS_CODE...]` match, `parseDumpsysPackage`
returns `versionName = "1.2.3"` and `enabled = null`. -/
theorem versionName_enabled_amended (text : String)
    (hvn : scanLabel "versionName=".toList versionNameChar text.toList =
      some "1.2.3".toList)
    (hen : containsL "enabled=".toList text.toList = false)
    (hpf : pkgFlagsHasCode text.toList = false) :
    (parseDumpsysPackage text).versionName = "1.2.3" ∧
    (parseDumpsysPackage text).enabled = none := by
  have h1 : containsL "enabled=true".toList text.toList = false := by
    have he : "enabled=true".toList = "enabled=".toList ++ "true".toList := by decide
    rw [he]
    exact containsL_extend_false hen
  have h2 : containsL "enabled=false".toList text.toList = false := by
    have he : "enabled=false".toList = "enabled=".toList ++ "false".toList := by decide
    rw [he]
    exact containsL_extend_false hen
  constructor
  · simp only [parseDumpsysPackage, getField]
    rw [hvn]
    rfl
  · simp only [parseDumpsysPackage]
    rw [h1, h2, hpf]
    simp

/-- Witness for C3 (amended) at a concrete input. -/
theorem versionName_enabled_amended_witness :
    (parseDumpsysPackage "versionName=1.2.3 userId=10").versionName = "1.2.3" ∧
    (parseDumpsysPackage "versionName=1.2.3 userId=10").enabled = none :=
  versionName_enabled_amended "versionName=1.2.3 userId=10"
    (by decide) (by decide) (by decide)

/-! ## C1: the parsers are total and degrade to defaults -/

theorem jsGet_jsSet (o : JsObj) (k k' v : String) :
    jsGet (jsSet o k' v) k = if k' = k then some v else jsGet o k := by
  induction o with
  | nil => by_cases h : k' = k <;> simp [jsSet, jsGet, h]
  | cons p rest ih =>
    by_cases hp : p.1 = k'
    · by_cases hk : k' = k <;> simp [jsSet, jsGet, hp, hk]
    · by_cases hk : k' = k
      · subst hk
        simp [jsSet, jsGet, hp, ih]
      · simp [jsSet, jsGet, hp, hk, ih]

theorem jsGet_foldl_isSome (toks : List (List Char)) (o : JsObj) (k : String)
    (h : (jsGet o k).isSome = true) :
    (jsGet (toks.foldl devTokenStep o) k).isSome = true := by
  induction toks generalizing o with
  | nil => simpa using h
  | cons m toks ih =>
    simp only [List.foldl_cons]
    apply ih
    unfold devTokenStep
    cases hm : splitChar ':' m with
    | nil => exact h
    | cons a rest =>
      cases rest with
      | nil => exact h
      | cons b rest2 =>
        by_cases hb : b.isEmpty
        · simpa [hb] using h
        · simp only [hb, if_false, Bool.false_eq_true, jsGet_jsSet]
          split
          · simp
          · exact h

/-- C1 — every parser is a total function: every device record carries a
`serial` and a `state`, every package record a nonempty name, and every
`PackageDetails` field whose label or section is absent from the text
degrades to its default (empty string, empty list, or null). -/
theorem parse_never_throws (text : String) :
    (∀ o ∈ parseDevicesList text,
      (jsGet o "serial").isSome = true ∧ (jsGet o "state").isSome = true) ∧
    (∀ r ∈ parsePackageList text, r.package ≠ "") ∧
    (scanLabel "versionName=".toList versionNameChar text.toList = none →
      (parseDumpsysPackage text).versionName = "") ∧
    (scanLabel "versionCode=".toList Char.isDigit text.toList = none →
      (parseDumpsysPackage text).versionCode = "") ∧
    (findSection "requested permissions:".toList text.toList = none →
      (parseDumpsysPackage text).requested = []) ∧
    (findSection "grantedPermissions:".toList text.toList = none →
      (parseDumpsysPackage text).granted = []) ∧
    (containsL "enabled=true".toList text.toList = false →
      pkgFlagsHasCode text.toList = false →
      containsL "enabled=false".toList text.toList = false →
      (parseDumpsysPackage text).enabled = none) := by
  refine ⟨?_, ?_, ?_, ?_, ?_, ?_, ?_⟩
  · intro o ho
    rw [parseDevicesList, List.mem_filterMap] at ho
    obtain ⟨l, -, hl⟩ := ho
    rw [parseDeviceLine] at hl
    split at hl
    · exact absurd hl (by simp)
    · split at hl
      · exact absurd hl (by simp)
      · exact absurd hl (by simp)
      · split at hl
        · exact absurd hl (by simp)
        · simp only [Option.some_inj] at hl
          subst hl
          constructor <;> apply jsGet_foldl_isSome <;> simp [jsGet]
  · intro r hr
    rw [parsePackageList, List.mem_filterMap] at hr
    obtain ⟨l, -, hl⟩ := hr
    rw [parsePackageLine] at hl
    split at hl
    · dsimp only at hl
      split at hl
      · next hcond =>
        simp only [Option.some_inj] at hl
        subst hl
        have hname : ¬ (l.drop "package:".toList.length).takeWhile wordDotChar = [] := by
          simp only [Bool.and_eq_true] at hcond
          simpa [List.isEmpty_iff] using hcond.1
        intro habs
        exact hname (by simpa using congrArg String.data habs)
      · exact absurd hl (by simp)
    · exact absurd hl (by simp)
  · intro h
    simp only [parseDumpsysPackage, getField]
    rw [h]
  · intro h
    simp only [parseDumpsysPackage, getField]
    rw [h]
  · intro h
    simp only [parseDumpsysPackage]
    rw [h]
  · intro h
    simp only [parseDumpsysPackage]
    rw [h]
  · intro h1 h2 h3
    simp only [parseDumpsysPackage]
    rw [h1, h3, h2]
    simp

/-- Witness for C1 at concrete inputs. -/
theorem parse_never_throws_witness :
    ((jsGet [("serial", "ZZ"), ("state", "device")] "serial").isSome = true ∧
      (jsGet [("serial", "ZZ"), ("state", "device")] "state").isSome = true) ∧
    (parseDumpsysPackage "@@garbage@@").versionName = "" ∧
    (parseDumpsysPackage "@@garbage@@").requested = [] ∧
    (parseDumpsysPackage "@@garbage@@").enabled = none := by
  refine ⟨?_, ?_, ?_, ?_⟩
  · exact (parse_never_throws "ZZ device junk").1
      [("serial", "ZZ"), ("state", "device")] (by decide)
  · exact (parse_never_throws "@@garbage@@").2.2.1 (by decide)
  · exact (parse_never_throws "@@garbage@@").2.2.2.2.1 (by decide)
  · exact (parse_never_throws "@@garbage@@").2.2.2.2.2.2 (by decide) (by decide) (by decide)

/-! ## Lemmas about `splitLinesAux` -/

theorem splitLinesAux_nil (acc : List Char) : splitLinesAux [] acc = [acc.reverse] := by rw [splitLinesAux]

theorem splitLinesAux_rn (cs acc : List Char) :
    splitLinesAux ('\r' :: '\n' :: cs) acc = acc.reverse :: splitLinesAux cs [] := by rw [splitLinesAux]

theorem splitLinesAux_n (cs acc : List Char) :
    splitLinesAux ('\n' :: cs) acc = acc.reverse :: splitLinesAux cs [] := by rw [splitLinesAux]

theorem splitLinesAux_other (c : Char) (cs acc : List Char)
    (h1 : ∀ cs', c = '\r' → cs = '\n' :: cs' → False) (h2 : c ≠ '\n') :
    splitLinesAux (c :: cs) acc = splitLinesAux cs (c :: acc) := by
  rw [splitLinesAux]
  · exact h1
  · exact h2

theorem splitLinesAux_ne_nil (l acc : List Char) : splitLinesAux l acc ≠ [] := by
  induction l, acc using splitLinesAux.induct with
  | case1 acc => simp [splitLinesAux_nil]
  | case2 cs acc ih => simp [splitLinesAux_rn]
  | case3 cs acc ih => simp [splitLinesAux_n]
  | case4 c cs acc h1 h2 ih => rw [splitLinesAux_other c cs acc h1 h2]; exact ih

theorem splitLinesAux_no_nl (l acc : List Char) (h : ∀ c ∈ l, c ≠ '\n') :
    splitLinesAux l acc = [acc.reverse ++ l] := by
  induction l, acc using splitLinesAux.induct with
  | case1 acc => simp [splitLinesAux_nil]
  | case2 cs acc ih => exact absurd (h '\n' (by simp)) (by simp)
  | case3 cs acc ih => exact absurd (h '\n' (by simp)) (by simp)
  | case4 c cs acc h1 h2 ih =>
    rw [splitLinesAux_other c cs acc h1 h2, ih (fun x hx => h x (by simp [hx]))]
    simp

theorem splitLinesAux_append_nl (a b acc : List Char) (h : a.getLast? ≠ some '\r') :
    splitLinesAux (a ++ '\n' :: b) acc = splitLinesAux a acc ++ splitLinesAux b [] := by
  induction a, acc using splitLinesAux.induct with
  | case1 acc => simp [splitLinesAux_nil, splitLinesAux_n]
  | case2 cs acc ih =>
    have hcs : cs.getLast? ≠ some '\r' := by
      cases cs with
      | nil => simp
      | cons d ds =>
        rw [List.getLast?_cons_cons, List.getLast?_cons_cons] at h
        exact h
    simp only [List.cons_append, splitLinesAux_rn, ih hcs]
  | case3 cs acc ih =>
    have hcs : cs.getLast? ≠ some '\r' := by
      cases cs with
      | nil => simp
      | cons d ds =>
        rw [List.getLast?_cons_cons] at h
        exact h
    simp only [List.cons_append, splitLinesAux_n, ih hcs]
  | case4 c cs acc h1 h2 ih =>
    cases cs with
    | nil =>
      have hc : c ≠ '\r' := by simpa using h
      simp only [List.cons_append, List.nil_append]
      rw [splitLinesAux_other c ('\n' :: b) acc (fun cs' hr _ => absurd hr hc) h2, splitLinesAux_n,
        splitLinesAux_other c [] acc (fun cs' _ hx => List.noConfusion hx) h2, splitLinesAux_nil]
      simp
    | cons d ds =>
      have hcs : (d :: ds).getLast? ≠ some '\r' := by
        rw [List.getLast?_cons_cons] at h
        exact h
      have hpat : ∀ cs', c = '\r' → d :: (ds ++ '\n' :: b) = '\n' :: cs' → False := by
        intro cs' hr he
        simp only [List.cons.injEq] at he
        exact h1 ds hr (by rw [he.1])
      simp only [List.cons_append]
      rw [splitLinesAux_other c (d :: (ds ++ '\n' :: b)) acc hpat h2,
        splitLinesAux_other c (d :: ds) acc h1 h2]
      exact ih hcs

theorem splitLinesAux_append_last_nl (a b acc : List Char) (h : a.getLast? = some '\n') :
    splitLinesAux (a ++ b) acc = (splitLinesAux a acc).dropLast ++ splitLinesAux b [] := by
  induction a, acc using splitLinesAux.induct with
  | case1 acc => simp at h
  | case2 cs acc ih =>
    cases cs with
    | nil => simp [splitLinesAux_rn, splitLinesAux_nil]
    | cons d ds =>
      rw [List.getLast?_cons_cons, List.getLast?_cons_cons] at h
      simp only [List.cons_append] at ih
      simp only [List.cons_append, splitLinesAux_rn]
      rw [List.dropLast_cons_of_ne_nil (splitLinesAux_ne_nil _ _)]
      simp only [List.cons_append, List.cons.injEq, true_and]
      exact ih h
  | case3 cs acc ih =>
    cases cs with
    | nil => simp [splitLinesAux_n, splitLinesAux_nil]
    | cons d ds =>
      rw [List.getLast?_cons_cons] at h
      simp only [List.cons_append] at ih
      simp only [List.cons_append, splitLinesAux_n]
      rw [List.dropLast_cons_of_ne_nil (splitLinesAux_ne_nil _ _)]
      simp only [List.cons_append, List.cons.injEq, true_and]
      exact ih h
  | case4 c cs acc h1 h2 ih =>
    cases cs with
    | nil => simp at h; exact absurd h h2
    | cons d ds =>
      rw [List.getLast?_cons_cons] at h
      have hpat : ∀ cs', c = '\r' → d :: (ds ++ b) = '\n' :: cs' → False := by
        intro cs' hr he
        simp only [List.cons.injEq] at he
        exact h1 ds hr (by rw [he.1])
      simp only [List.cons_append] at ih
      simp only [List.cons_append]
      rw [splitLinesAux_other c (d :: (ds ++ b)) acc hpat h2, ih h,
        splitLinesAux_other c (d :: ds) acc h1 h2]

/-! ## Lemmas about `splitWsAux`, `joinSp` and `jsTrim` -/

/-- A whitespace-free nonempty token, as produced by splitting a trimmed
nonempty line on `/\s+/`. -/
def plainTok (t : List Char) : Prop := t ≠ [] ∧ ∀ c ∈ t, wsChar c = false

instance (t : List Char) : Decidable (plainTok t) := by
  unfold plainTok
  infer_instance

theorem splitWsAux_cons_none (c : Char) (cs : List Char) :
    splitWsAux (c :: cs) none =
      if wsChar c then splitWsAux cs none else splitWsAux cs (some [c]) := by
  rw [splitWsAux]

theorem splitWsAux_cons_some (c : Char) (cs acc : List Char) :
    splitWsAux (c :: cs) (some acc) =
      if wsChar c then acc.reverse :: splitWsAux cs none
      else splitWsAux cs (some (c :: acc)) := by
  rw [splitWsAux]

theorem splitWsAux_token (t : List Char) (ht : ∀ c ∈ t, wsChar c = false) :
    ∀ cs acc, splitWsAux (t ++ cs) (some acc) =
      splitWsAux cs (some (t.reverse ++ acc)) := by
  induction t with
  | nil => intro cs acc; simp
  | cons c t ih =>
    intro cs acc
    rw [List.cons_append, splitWsAux_cons_some, if_neg (by simp [ht c (by simp)]),
      ih (fun x hx => ht x (by simp [hx])) cs (c :: acc)]
    simp

theorem splitWsAux_start (l : List Char)
    (h : ∀ c, l.head? = some c → wsChar c = false) :
    splitWsAux l none = splitWsAux l (some []) := by
  cases l with
  | nil => rw [splitWsAux, splitWsAux]; rfl
  | cons c cs =>
    rw [splitWsAux_cons_none, splitWsAux_cons_some,
      if_neg (by simp [h c rfl]), if_neg (by simp [h c rfl])]

theorem joinSp_cons_cons (t u : List Char) (us : List (List Char)) :
    joinSp (t :: u :: us) = t ++ ' ' :: joinSp (u :: us) := by
  rw [joinSp]
  simp

theorem joinSp_ne_nil (ts : List (List Char)) (h1 : ts ≠ [])
    (h2 : ∀ t ∈ ts, t ≠ []) : joinSp ts ≠ [] := by
  cases ts with
  | nil => exact absurd rfl h1
  | cons t us =>
    cases us with
    | nil => exact h2 t (by simp)
    | cons u us =>
      rw [joinSp_cons_cons]
      cases ht : t with
      | nil => exact absurd ht (h2 t (by simp))
      | cons a as => simp

theorem joinSp_head (t : List Char) (ts : List (List Char)) (ht : t ≠ []) :
    (joinSp (t :: ts)).head? = t.head? := by
  cases ts with
  | nil => rfl
  | cons u us =>
    rw [joinSp_cons_cons]
    cases t with
    | nil => exact absurd rfl ht
    | cons a as => simp

theorem mem_of_getLast?_eq {α : Type} {l : List α} {a : α}
    (h : l.getLast? = some a) : a ∈ l := by
  induction l with
  | nil => simp at h
  | cons c cs ih =>
    cases cs with
    | nil =>
      simp only [List.getLast?_singleton, Option.some_inj] at h
      simp [h]
    | cons d ds =>
      rw [List.getLast?_cons_cons] at h
      exact List.mem_cons_of_mem c (ih h)

theorem joinSp_getLast (ts : List (List Char)) (h2 : ∀ t ∈ ts, t ≠ []) :
    ∀ t, ts.getLast? = some t → (joinSp ts).getLast? = t.getLast? := by
  induction ts with
  | nil => intro t ht; simp at ht
  | cons u us ih =>
    intro t ht
    cases us with
    | nil =>
      simp only [List.getLast?_singleton, Option.some_inj] at ht
      simp [joinSp, ht]
    | cons v vs =>
      rw [List.getLast?_cons_cons] at ht
      rw [joinSp_cons_cons,
        List.getLast?_append_of_ne_nil u (by simp),
        ← ih (fun x hx => h2 x (by simp [hx])) t ht]
      have hjoin : joinSp (v :: vs) ≠ [] :=
        joinSp_ne_nil (v :: vs) (by simp) (fun x hx => h2 x (by simp [hx]))
      cases hj : joinSp (v :: vs) with
      | nil => exact absurd hj hjoin
      | cons j js => rw [List.getLast?_cons_cons]

theorem splitWs_joinSp (ts : List (List Char)) (h1 : ts ≠ [])
    (h2 : ∀ t ∈ ts, plainTok t) : splitWs (joinSp ts) = ts := by
  induction ts with
  | nil => exact absurd rfl h1
  | cons t us ih =>
    cases us with
    | nil =>
      show splitWsAux (joinSp [t]) (some []) = [t]
      have : joinSp [t] = t ++ [] := by simp [joinSp]
      rw [this, splitWsAux_token t (h2 t (by simp)).2, splitWsAux]
      simp
    | cons u us =>
      show splitWsAux (joinSp (t :: u :: us)) (some []) = t :: u :: us
      rw [joinSp_cons_cons, splitWsAux_token t (h2 t (by simp)).2,
        splitWsAux_cons_some, if_pos (by decide)]
      have hhead : ∀ c, (joinSp (u :: us)).head? = some c → wsChar c = false := by
        intro c hc
        rw [joinSp_head u us (h2 u (by simp)).1] at hc
        exact (h2 u (by simp)).2 c (by
          cases hu : u with
          | nil => rw [hu] at hc; simp at hc
          | cons a as =>
            rw [hu] at hc
            simp only [List.head?_cons, Option.some_inj] at hc
            simp [hc])
      rw [splitWsAux_start (joinSp (u :: us)) hhead]
      have := ih (by simp) (fun x hx => h2 x (by simp [hx]))
      rw [show splitWsAux (joinSp (u :: us)) (some []) = splitWs (joinSp (u :: us)) from rfl,
        this]
      simp

theorem dropWhile_head_false {p : Char → Bool} (l : List Char)
    (h : ∀ c, l.head? = some c → p c = false) : l.dropWhile p = l := by
  cases l with
  | nil => rfl
  | cons c cs => simp [List.dropWhile_cons, h c rfl]

theorem jsTrim_plain (l : List Char)
    (h1 : ∀ c, l.head? = some c → wsChar c = false)
    (h2 : ∀ c, l.getLast? = some c → wsChar c = false) : jsTrim l = l := by
  unfold jsTrim
  rw [dropWhile_head_false l h1,
    dropWhile_head_false l.reverse (fun c hc => h2 c (by rwa [List.head?_reverse] at hc)),
    List.reverse_reverse]

/-! ## Lemmas about `splitChar`, `jsSet` and the attribute fold -/

theorem splitCharAux_nil (sep : Char) (acc : List Char) :
    splitCharAux sep [] acc = [acc.reverse] := by rw [splitCharAux]

theorem splitCharAux_cons (sep c : Char) (cs acc : List Char) :
    splitCharAux sep (c :: cs) acc =
      if c = sep then acc.reverse :: splitCharAux sep cs []
      else splitCharAux sep cs (c :: acc) := by rw [splitCharAux]

theorem splitCharAux_no_sep (sep : Char) (t : List Char) (ht : sep ∉ t) :
    ∀ cs acc, splitCharAux sep (t ++ cs) acc = splitCharAux sep cs (t.reverse ++ acc) := by
  induction t with
  | nil => intro cs acc; simp
  | cons c t ih =>
    intro cs acc
    rw [List.cons_append, splitCharAux_cons,
      if_neg (fun hc => ht (by simp [hc])),
      ih (fun hc => ht (by simp [hc])) cs (c :: acc)]
    simp

theorem splitChar_kv (sep : Char) (k v : List Char) (hk : sep ∉ k) (hv : sep ∉ v) :
    splitChar sep (k ++ sep :: v) = [k, v] := by
  unfold splitChar
  rw [splitCharAux_no_sep sep k hk (sep :: v) [], splitCharAux_cons, if_pos rfl]
  have h2 : splitCharAux sep (v ++ []) [] = splitCharAux sep [] (v.reverse ++ []) :=
    splitCharAux_no_sep sep v hv [] []
  simp only [List.append_nil] at h2
  rw [h2, splitCharAux_nil]
  simp

/-- A well-formed `key:value` attribute token: both parts nonempty,
whitespace-free and colon-free. -/
def plainAttr (kv : List Char × List Char) : Prop :=
  plainTok kv.1 ∧ plainTok kv.2 ∧ ':' ∉ kv.1 ∧ ':' ∉ kv.2

instance (kv : List Char × List Char) : Decidable (plainAttr kv) := by
  unfold plainAttr
  infer_instance

/-- The source text of one `key:value` token. -/
def attrTok (kv : List Char × List Char) : List Char := kv.1 ++ ':' :: kv.2

theorem attrTok_plain (kv : List Char × List Char) (h : plainAttr kv) :
    plainTok (attrTok kv) := by
  obtain ⟨⟨hk1, hk2⟩, ⟨hv1, hv2⟩, -, -⟩ := h
  refine ⟨by simp [attrTok], ?_⟩
  intro c hc
  rcases List.mem_append.mp hc with h | h
  · exact hk2 c h
  · rcases List.mem_cons.mp h with h | h
    · subst h; decide
    · exact hv2 c h

theorem devTokenStep_attr (o : JsObj) (kv : List Char × List Char)
    (h : plainAttr kv) :
    devTokenStep o (attrTok kv) = jsSet o (String.mk kv.1) (String.mk kv.2) := by
  obtain ⟨k, v⟩ := kv
  obtain ⟨-, ⟨hv1, -⟩, hk3, hv3⟩ := h
  unfold devTokenStep attrTok
  rw [splitChar_kv ':' k v hk3 hv3]
  simp [List.isEmpty_iff, hv1]

theorem jsSet_fresh (o : JsObj) (k v : String) (h : ∀ p ∈ o, p.1 ≠ k) :
    jsSet o k v = o ++ [(k, v)] := by
  induction o with
  | nil => rfl
  | cons p rest ih =>
    rw [jsSet]
    rw [if_neg (by simp [h p (by simp)]), ih (fun q hq => h q (by simp [hq]))]
    simp

theorem foldl_devTokenStep_fresh (attrs : List (List Char × List Char)) :
    ∀ (o : JsObj), (∀ kv ∈ attrs, plainAttr kv) →
      ((attrs.map (fun kv => String.mk kv.1)).Nodup) →
      (∀ kv ∈ attrs, ∀ p ∈ o, p.1 ≠ String.mk kv.1) →
      (attrs.map attrTok).foldl devTokenStep o =
        o ++ attrs.map (fun kv => (String.mk kv.1, String.mk kv.2)) := by
  induction attrs with
  | nil => intro o _ _ _; simp
  | cons kv attrs ih =>
    intro o hpl hnd hfr
    simp only [List.map_cons, List.foldl_cons]
    rw [devTokenStep_attr o kv (hpl kv (by simp)),
      jsSet_fresh o _ _ (fun p hp => hfr kv (by simp) p hp)]
    rw [ih (o ++ [(String.mk kv.1, String.mk kv.2)])
      (fun x hx => hpl x (by simp [hx]))
      (by simpa using (List.nodup_cons.mp (by simpa using hnd)).2)
      ?_]
    · simp
    · intro kv' hkv' p hp
      rcases List.mem_append.mp hp with h | h
      · exact hfr kv' (by simp [hkv']) p h
      · have hpk : p.1 = String.mk kv.1 := by
          simp only [List.mem_singleton] at h
          rw [h]
        rw [hpk]
        have hnotin : String.mk kv.1 ∉ attrs.map (fun kv => String.mk kv.1) :=
          (List.nodup_cons.mp (by simpa using hnd)).1
        intro he
        exact hnotin (he ▸ List.mem_map_of_mem (fun kv => String.mk kv.1) hkv')

/-! ## C6: round-trip of a well-formed device line -/

/-- The source text of a device-list line with the given serial, state and
`key:value` attribute tokens, separated by single spaces. -/
def deviceLine (serial state : List Char)
    (attrs : List (List Char × List Char)) : List Char :=
  joinSp (serial :: state :: attrs.map attrTok)

theorem mem_joinSp {c : Char} (ts : List (List Char)) (h : c ∈ joinSp ts) :
    c = ' ' ∨ ∃ t ∈ ts, c ∈ t := by
  induction ts with
  | nil => simp [joinSp] at h
  | cons t us ih =>
    cases us with
    | nil =>
      simp only [joinSp] at h
      exact Or.inr ⟨t, by simp, h⟩
    | cons u us =>
      rw [joinSp_cons_cons] at h
      rcases List.mem_append.mp h with h | h
      · exact Or.inr ⟨t, by simp, h⟩
      · rcases List.mem_cons.mp h with h | h
        · exact Or.inl h
        · rcases ih h with h | ⟨t', ht', hc⟩
          · exact Or.inl h
          · exact Or.inr ⟨t', by simp [List.mem_cons.mp ht'], hc⟩

theorem deviceLine_tokens_plain (serial state : List Char)
    (attrs : List (List Char × List Char))
    (hs : plainTok serial) (hst : plainTok state)
    (ha : ∀ kv ∈ attrs, plainAttr kv) :
    ∀ t ∈ serial :: state :: attrs.map attrTok, plainTok t := by
  intro t ht
  rcases List.mem_cons.mp ht with h | h
  · exact h ▸ hs
  · rcases List.mem_cons.mp h with h | h
    · exact h ▸ hst
    · obtain ⟨kv, hkv, rfl⟩ := List.mem_map.mp h
      exact attrTok_plain kv (ha kv hkv)

theorem deviceLine_no_nl (serial state : List Char)
    (attrs : List (List Char × List Char))
    (hs : plainTok serial) (hst : plainTok state)
    (ha : ∀ kv ∈ attrs, plainAttr kv) :
    ∀ c ∈ deviceLine serial state attrs, c ≠ '\n' := by
  intro c hc
  rcases mem_joinSp _ hc with h | ⟨t, ht, hct⟩
  · simp [h]
  · have := (deviceLine_tokens_plain serial state attrs hs hst ha t ht).2 c hct
    intro he
    rw [he] at this
    exact absurd this (by decide)

theorem jsTrim_deviceLine (serial state : List Char)
    (attrs : List (List Char × List Char))
    (hs : plainTok serial) (hst : plainTok state)
    (ha : ∀ kv ∈ attrs, plainAttr kv) :
    jsTrim (deviceLine serial state attrs) = deviceLine serial state attrs := by
  have hts := deviceLine_tokens_plain serial state attrs hs hst ha
  apply jsTrim_plain
  · intro c hc
    rw [deviceLine, joinSp_head serial _ hs.1] at hc
    exact hs.2 c (by
      cases hser : serial with
      | nil => exact absurd hser hs.1
      | cons a as =>
        rw [hser] at hc
        simp only [List.head?_cons, Option.some_inj] at hc
        simp [hc])
  · intro c hc
    have hne : ∀ t ∈ serial :: state :: attrs.map attrTok, t ≠ [] :=
      fun t ht => (hts t ht).1
    have hlast : ((serial :: state :: attrs.map attrTok).getLast?).isSome := by
      rw [List.getLast?_isSome]
      simp
    obtain ⟨t, ht⟩ := Option.isSome_iff_exists.mp hlast
    rw [deviceLine, joinSp_getLast _ hne t ht] at hc
    exact (hts t (mem_of_getLast?_eq ht)).2 c (mem_of_getLast?_eq hc)

theorem parseDeviceLine_deviceLine (serial state : List Char)
    (attrs : List (List Char × List Char))
    (hs : plainTok serial) (hst : plainTok state)
    (ha : ∀ kv ∈ attrs, plainAttr kv)
    (hhdr : "List of devices attached".toList.isPrefixOf
      (deviceLine serial state attrs) = false) :
    parseDeviceLine (deviceLine serial state attrs) =
      some ((attrs.map attrTok).foldl devTokenStep
        [("serial", String.mk serial), ("state", String.mk state)]) := by
  rw [parseDeviceLine, if_neg (by rw [hhdr]; simp)]
  have hsw : splitWs (deviceLine serial state attrs) =
      serial :: state :: attrs.map attrTok :=
    splitWs_joinSp _ (by simp) (deviceLine_tokens_plain serial state attrs hs hst ha)
  rw [hsw]
  dsimp only
  rw [if_neg (by simp [List.isEmpty_iff, hs.1, hst.1])]
  cases attrs with
  | nil => rfl
  | cons kv attrs' =>
    rw [splitWs_joinSp ((kv :: attrs').map attrTok) (by simp)
      (fun t ht => by
        obtain ⟨kv', hkv', rfl⟩ := List.mem_map.mp ht
        exact attrTok_plain kv' (ha kv' hkv'))]

theorem parseDevicesList_deviceLine (serial state : List Char)
    (attrs : List (List Char × List Char))
    (hs : plainTok serial) (hst : plainTok state)
    (ha : ∀ kv ∈ attrs, plainAttr kv)
    (hhdr : "List of devices attached".toList.isPrefixOf
      (deviceLine serial state attrs) = false) :
    parseDevicesList (String.mk (deviceLine serial state attrs)) =
      [(attrs.map attrTok).foldl devTokenStep
        [("serial", String.mk serial), ("state", String.mk state)]] := by
  have hnl := deviceLine_no_nl serial state attrs hs hst ha
  have hne : deviceLine serial state attrs ≠ [] :=
    joinSp_ne_nil _ (by simp)
      (fun t ht => (deviceLine_tokens_plain serial state attrs hs hst ha t ht).1)
  rw [parseDevicesList]
  rw [show (String.mk (deviceLine serial state attrs)).toList =
    deviceLine serial state attrs from rfl]
  rw [show splitLines (deviceLine serial state attrs) =
      [deviceLine serial state attrs] by
    rw [splitLines, splitLinesAux_no_nl _ [] hnl]
    simp]
  rw [List.map_cons, List.map_nil, jsTrim_deviceLine serial state attrs hs hst ha]
  rw [List.filter_cons, if_pos (by simp [List.isEmpty_iff, hne]), List.filter_nil]
  rw [List.filterMap_cons,
    parseDeviceLine_deviceLine serial state attrs hs hst ha hhdr]
  simp

/-- C6 — round-trip: a well-formed device line (whitespace-free nonempty
serial and state, colon-free nonempty attribute keys and values, distinct
keys none of which is `serial` or `state`, not the header line), parsed by
`parseDevicesList`, reconstructs exactly that serial, state and attribute
sequence, with no loss and no reordering. -/
theorem deviceLine_roundtrip (serial state : List Char)
    (attrs : List (List Char × List Char))
    (hs : plainTok serial) (hst : plainTok state)
    (ha : ∀ kv ∈ attrs, plainAttr kv)
    (hkeys : ∀ kv ∈ attrs, String.mk kv.1 ≠ "serial" ∧ String.mk kv.1 ≠ "state")
    (hnd : (attrs.map (fun kv => String.mk kv.1)).Nodup)
    (hhdr : "List of devices attached".toList.isPrefixOf
      (deviceLine serial state attrs) = false) :
    parseDevicesList (String.mk (deviceLine serial state attrs)) =
      [("serial", String.mk serial) :: ("state", String.mk state) ::
        attrs.map (fun kv => (String.mk kv.1, String.mk kv.2))] := by
  rw [parseDevicesList_deviceLine serial state attrs hs hst ha hhdr]
  rw [foldl_devTokenStep_fresh attrs
    [("serial", String.mk serial), ("state", String.mk state)] ha hnd
    (fun kv' hkv' p hp => by
      rcases List.mem_cons.mp hp with h | h
      · rw [h]
        exact fun he => (hkeys kv' hkv').1 he.symm
      · rcases List.mem_cons.mp h with h | h
        · rw [h]
          exact fun he => (hkeys kv' hkv').2 he.symm
        · simp at h)]
  simp

/-- Witness for C6 at a concrete well-formed device line. -/
theorem deviceLine_roundtrip_witness :
    parseDevicesList (String.mk (deviceLine "ABC123".toList "device".toList
      [("product".toList, "pixel".toList), ("model".toList, "Pixel_5".toList)])) =
      [[("serial", "ABC123"), ("state", "device"),
        ("product", "pixel"), ("model", "Pixel_5")]] := by
  have h := deviceLine_roundtrip "ABC123".toList "device".toList
    [("product".toList, "pixel".toList), ("model".toList, "Pixel_5".toList)]
    (by decide) (by decide) (by decide) (by decide) (by decide) (by decide)
  simpa using h

/-! ## C9: attribute tokens live at top level and can overwrite -/

/-- C9 — `parseDevicesList` stores `key:value` tail tokens as top-level
fields of the returned record (there is no separate attributes map): a
tail token keyed `serial` or `state` therefore overwrites the value parsed
from the first two whitespace-separated fields of the line, in place. -/
theorem deviceLine_overwrite (serial state v : List Char)
    (hs : plainTok serial) (hst : plainTok state) (hv : plainTok v)
    (hvc : ':' ∉ v)
    (hhdr1 : "List of devices attached".toList.isPrefixOf
      (deviceLine serial state [("serial".toList, v)]) = false)
    (hhdr2 : "List of devices attached".toList.isPrefixOf
      (deviceLine serial state [("state".toList, v)]) = false) :
    parseDevicesList (String.mk (deviceLine serial state [("serial".toList, v)])) =
      [[("serial", String.mk v), ("state", String.mk state)]] ∧
    parseDevicesList (String.mk (deviceLine serial state [("state".toList, v)])) =
      [[("serial", String.mk serial), ("state", String.mk v)]] := by
  have hser : plainTok "serial".toList := by decide
  have hserc : ':' ∉ "serial".toList := by decide
  have hsta : plainTok "state".toList := by decide
  have hstac : ':' ∉ "state".toList := by decide
  constructor
  · rw [parseDevicesList_deviceLine serial state [("serial".toList, v)] hs hst
      (by
        intro kv hkv
        simp only [List.mem_singleton] at hkv
        rw [hkv]
        exact ⟨hser, hv, hserc, hvc⟩) hhdr1]
    simp only [List.map_cons, List.map_nil, List.foldl_cons, List.foldl_nil]
    rw [devTokenStep_attr _ ("serial".toList, v) ⟨hser, hv, hserc, hvc⟩]
    rw [show String.mk "serial".toList = "serial" from rfl]
    simp [jsSet]
  · rw [parseDevicesList_deviceLine serial state [("state".toList, v)] hs hst
      (by
        intro kv hkv
        simp only [List.mem_singleton] at hkv
        rw [hkv]
        exact ⟨hsta, hv, hstac, hvc⟩) hhdr2]
    simp only [List.map_cons, List.map_nil, List.foldl_cons, List.foldl_nil]
    rw [devTokenStep_attr _ ("state".toList, v) ⟨hsta, hv, hstac, hvc⟩]
    rw [show String.mk "state".toList = "state" from rfl]
    simp [jsSet]

/-- Witness for C9 at a concrete device line. -/
theorem deviceLine_overwrite_witness :
    parseDevicesList (String.mk (deviceLine "OLDSER".toList "device".toList
      [("serial".toList, "NEWSER".toList)])) =
      [[("serial", "NEWSER"), ("state", "device")]] ∧
    parseDevicesList (String.mk (deviceLine "OLDSER".toList "device".toList
      [("state".toList, "NEWST".toList)])) =
      [[("serial", "OLDSER"), ("state", "NEWST")]] := by
  constructor
  · have h := (deviceLine_overwrite "OLDSER".toList "device".toList "NEWSER".toList
      (by decide) (by decide) (by decide) (by decide) (by decide) (by decide)).1
    simpa using h
  · have h := (deviceLine_overwrite "OLDSER".toList "device".toList "NEWST".toList
      (by decide) (by decide) (by decide) (by decide) (by decide) (by decide)).2
    simpa using h

/-! ## C2: the device-list algorithm -/

/-- C2 counterexample — the tail token `serial:B` is not merely "added to
attributes": it overwrites the serial parsed from the first field, so the
record's serial is `B`, not `A`, and no separate attribute entry exists. -/
theorem parseDevicesList_attr_counterexample :
    (parseDevicesList "List of devices attached\nA device serial:B\n").map
      (fun o => jsGet o "serial") = [some "B"] ∧
    some "B" ≠ some "A" ∧
    parseDevicesList "List of devices attached\nA device serial:B\n" =
      [[("serial", "B"), ("state", "device")]] := by
  refine ⟨by decide, by decide, by decide⟩

/-- C2 amended — the device-list algorithm as the source implements it:
the spec's concrete example parses exactly as stated; records appear in
input line order (splitting the input at a newline splits the output
accordingly); and any line starting with the header prefix is dropped.
Tokens are stored as top-level record fields, so `serial:`/`state:` tokens
overwrite (see the overwrite theorem for C9). -/
theorem parseDevicesList_algorithm_amended :
    parseDevicesList "List of devices attached\nABC123\tdevice product:pixel model:Pixel_5\n" =
      [[("serial", "ABC123"), ("state", "device"),
        ("product", "pixel"), ("model", "Pixel_5")]] ∧
    (∀ a b : List Char, a.getLast? ≠ some '\r' →
      parseDevicesList (String.mk (a ++ '\n' :: b)) =
        parseDevicesList (String.mk a) ++ parseDevicesList (String.mk b)) ∧
    (∀ l : List Char, "List of devices attached".toList.isPrefixOf l = true →
      parseDeviceLine l = none) := by
  refine ⟨by decide, ?_, ?_⟩
  · intro a b h
    rw [parseDevicesList, parseDevicesList, parseDevicesList]
    rw [show (String.mk (a ++ '\n' :: b)).toList = a ++ '\n' :: b from rfl,
      show (String.mk a).toList = a from rfl,
      show (String.mk b).toList = b from rfl]
    rw [splitLines, splitLinesAux_append_nl a b [] h, ← splitLines, ← splitLines]
    rw [List.map_append, List.filter_append, List.filterMap_append]
  · intro l h
    rw [parseDeviceLine, if_pos (by rw [h])]

/-- Witness for C2 (amended) at concrete inputs. -/
theorem parseDevicesList_algorithm_amended_witness :
    parseDevicesList (String.mk ("X1 device".toList ++ '\n' :: "X2 offline".toList)) =
      parseDevicesList (String.mk "X1 device".toList) ++
        parseDevicesList (String.mk "X2 offline".toList) ∧
    parseDeviceLine "List of devices attached".toList = none := by
  constructor
  · exact parseDevicesList_algorithm_amended.2.1
      "X1 device".toList "X2 offline".toList (by decide)
  · exact parseDevicesList_algorithm_amended.2.2
      "List of devices attached".toList (by decide)

/-! ## C4: the requested-permissions section -/

/-- The requested-permissions sequence exactly as claim C4 words it,
read line-by-line: the lines of the text following a
`requested permissions:` header line, up to the next blank line, each
trimmed, with empty lines and lines containing `granted=true` excluded. -/
def reqPermsLinewise (text : String) : List String :=
  match (splitLines text.toList).findIdx?
      (fun l => jsTrim l == "requested permissions:".toList) with
  | some i =>
    (((((splitLines text.toList).drop (i + 1)).takeWhile
        (fun l => !(jsTrim l).isEmpty)).map jsTrim).filter
      (fun s => !s.isEmpty && !containsL "granted=true".toList s)).map
        (fun l => String.mk l)
  | none => []

/-- C4 counterexample — on a text where a blank line immediately follows
the header, the claim's line-by-line reading yields no permissions, but
the parser skips the leading whitespace (including blank lines) via `\s*`
and still extracts `android.permission.A`. -/
theorem requested_section_counterexample :
    reqPermsLinewise "requested permissions:\n\nandroid.permission.A\n\n" = [] ∧
    (parseDumpsysPackage "requested permissions:\n\nandroid.permission.A\n\n").requested =
      ["android.permission.A"] ∧
    (["android.permission.A"] : List String) ≠ [] := by
  refine ⟨by decide, by decide, by decide⟩

theorem firstIndexOf_at (pat : List Char) : ∀ (x y : List Char),
    (∀ i < x.length, pat.isPrefixOf ((x ++ (pat ++ y)).drop i) = false) →
    firstIndexOf pat (x ++ (pat ++ y)) = some x.length := by
  intro x
  induction x with
  | nil =>
    intro y h
    simp only [List.nil_append, List.length_nil]
    cases hp : pat ++ y with
    | nil =>
      have hpe : pat = [] := by cases pat <;> simp_all
      rw [hpe]
      decide
    | cons c cs =>
      rw [firstIndexOf,
        if_pos (List.isPrefixOf_iff_prefix.mpr (hp ▸ List.prefix_append pat y))]
  | cons c x' ih =>
    intro y h
    have h0 : pat.isPrefixOf (c :: (x' ++ (pat ++ y))) = false := by
      have := h 0 (by simp)
      simpa using this
    rw [List.cons_append, firstIndexOf, if_neg (by rw [h0]; simp)]
    rw [ih y (fun i hi => by
      have := h (i + 1) (by simpa using Nat.succ_lt_succ hi)
      simpa using this)]
    simp [List.length_cons]

theorem findSection_cons (label : List Char) (c : Char) (cs : List Char) :
    findSection label (c :: cs) =
      if label.isPrefixOf (c :: cs) then
        match sectionGroup ((c :: cs).drop label.length) with
        | some g => some g
        | none => findSection label cs
      else findSection label cs := by
  rw [findSection]

theorem findSection_at (label : List Char) (hlab : label ≠ []) :
    ∀ (p : List Char) (r : List Char) (g' : List Char),
    (∀ i < p.length, label.isPrefixOf ((p ++ (label ++ r)).drop i) = false) →
    sectionGroup r = some g' →
    findSection label (p ++ (label ++ r)) = some g' := by
  intro p
  induction p with
  | nil =>
    intro r g' h hsg
    simp only [List.nil_append]
    cases hl : label with
    | nil => exact absurd hl hlab
    | cons lh lt =>
      rw [List.cons_append, findSection_cons,
        if_pos (List.isPrefixOf_iff_prefix.mpr ⟨r, by simp⟩)]
      rw [show lh :: (lt ++ r) = (lh :: lt) ++ r from rfl]
      rw [show ((lh :: lt) ++ r).drop (lh :: lt).length = r from List.drop_left _ _]
      rw [hsg]
  | cons c p' ih =>
    intro r g' h hsg
    have h0 : label.isPrefixOf (c :: (p' ++ (label ++ r))) = false := by
      have := h 0 (by simp)
      simpa using this
    rw [List.cons_append, findSection_cons, if_neg (by rw [h0]; simp)]
    exact ih r g' (fun i hi => by
      have := h (i + 1) (by simpa using Nat.succ_lt_succ hi)
      simpa using this) hsg

theorem takeWhile_all_append {p : Char → Bool} (w t : List Char)
    (hw : ∀ c ∈ w, p c = true) :
    (w ++ t).takeWhile p = w ++ t.takeWhile p := by
  induction w with
  | nil => simp
  | cons c w' ih =>
    rw [List.cons_append, List.takeWhile_cons, if_pos (by rw [hw c (by simp)]),
      ih (fun x hx => hw x (by simp [hx]))]
    simp

theorem sectionGroup_at (w g q : List Char) (hw : ∀ c ∈ w, wsChar c = true)
    (hgne : g ≠ []) (hg : ∀ c, g.head? = some c → wsChar c = false)
    (hnl : ∀ i < g.length, nlnl.isPrefixOf ((g ++ (nlnl ++ q)).drop i) = false) :
    sectionGroup (w ++ (g ++ (nlnl ++ q))) = some g := by
  have htw : (w ++ (g ++ (nlnl ++ q))).takeWhile wsChar = w := by
    rw [takeWhile_all_append w _ hw]
    cases g with
    | nil => exact absurd rfl hgne
    | cons gh gt =>
      rw [List.cons_append, List.takeWhile_cons, if_neg (by rw [hg gh rfl]; simp)]
      simp
  rw [sectionGroup, htw, List.drop_left, firstIndexOf_at nlnl g q hnl]
  dsimp only
  rw [List.take_left]

/-- C4 amended — the parser reads the requested-permissions section as
follows: after the first occurrence of the `requested permissions:` label,
leading whitespace (including blank lines) is skipped; the section is the
text from there up to the next two consecutive newlines; its lines are
trimmed, and empty lines and lines containing `granted=true` are dropped,
in input order.  (If no `\n\n` follows the label the sequence is empty —
claim C10.) -/
theorem requested_section_amended (text : String) (p w g q : List Char)
    (hdec : text.toList =
      p ++ ("requested permissions:".toList ++ (w ++ (g ++ (nlnl ++ q)))))
    (hfirst : ∀ i < p.length,
      "requested permissions:".toList.isPrefixOf (text.toList.drop i) = false)
    (hw : ∀ c ∈ w, wsChar c = true)
    (hgne : g ≠ [])
    (hg : ∀ c, g.head? = some c → wsChar c = false)
    (hnl : ∀ i < g.length, nlnl.isPrefixOf ((g ++ (nlnl ++ q)).drop i) = false) :
    (parseDumpsysPackage text).requested =
      (((splitLines g).map jsTrim).filter
        (fun s => !s.isEmpty && !containsL "granted=true".toList s)).map
          (fun l => String.mk l) := by
  have hfs : findSection "requested permissions:".toList text.toList = some g := by
    rw [hdec]
    exact findSection_at "requested permissions:".toList (by decide)
      p (w ++ (g ++ (nlnl ++ q))) g
      (fun i hi => by rw [← hdec]; exact hfirst i hi)
      (sectionGroup_at w g q hw hgne hg hnl)
  simp only [parseDumpsysPackage]
  rw [hfs]

/-- Witness for C4 (amended) at a concrete dumpsys fragment. -/
theorem requested_section_amended_witness :
    (parseDumpsysPackage
        "x requested permissions:\n  android.permission.A\n  p.B granted=true\n\nz").requested =
      ["android.permission.A"] := by
  have h := requested_section_amended
    "x requested permissions:\n  android.permission.A\n  p.B granted=true\n\nz"
    "x ".toList "\n  ".toList
    "android.permission.A\n  p.B granted=true".toList "z".toList
    (by decide) (by decide) (by decide) (by decide) (by decide) (by decide)
  rw [h]
  decide

/-! ## C7: the log relay's line events -/

/-- The nonempty lines of a piece of text, in order (the relay's
`if (ln) send(ln)` drops the empty ones). -/
def nonemptyLines (cs : List Char) : List (List Char) :=
  (splitLines cs).filter (fun l => !l.isEmpty)

/-- The concatenation of the chunks a given pipe delivered, in order. -/
def concatSrc (s : Src) : List (Src × List Char) → List Char
  | [] => []
  | p :: tr => (if p.1 = s then p.2 else []) ++ concatSrc s tr

/-- C7 counterexample — the chunk `"a\n\nb\n"` delivers three lines
(`a`, the empty line, `b`), but the relay forwards only two events:
the empty line produces no event at all. -/
theorem relay_empty_line_counterexample :
    (splitLines "a\n\nb\n".toList).length = 4 ∧
    relayEvents [(Src.out, "a\n\nb\n".toList)] =
      [(Src.out, "a".toList), (Src.out, "b".toList)] ∧
    (Src.out, ([] : List Char)) ∉ relayEvents [(Src.out, "a\n\nb\n".toList)] := by
  refine ⟨by decide, by decide, by decide⟩

theorem nonemptyLines_append (c r : List Char)
    (h : c = [] ∨ c.getLast? = some '\n') :
    nonemptyLines (c ++ r) = nonemptyLines c ++ nonemptyLines r := by
  rcases h with h | h
  · rw [h]
    simp [nonemptyLines, splitLines, splitLinesAux_nil]
  · unfold nonemptyLines splitLines
    rw [splitLinesAux_append_last_nl c r [] h, List.filter_append]
    congr 1
    have hL : splitLinesAux c [] = (splitLinesAux c []).dropLast ++ [[]] := by
      have h2 := splitLinesAux_append_last_nl c [] [] h
      rw [List.append_nil] at h2
      simpa [splitLinesAux_nil] using h2
    conv_rhs => rw [hL]
    rw [List.filter_append]
    simp

/-- C7 amended — when chunk boundaries fall on line boundaries (every
chunk is newline-terminated or empty), every *nonempty* line arriving on
standard output is forwarded as exactly one event carrying that line's
text, in arrival order, and every nonempty line on standard error as
exactly one event with `"[stderr] "` prepended, stderr events ordered
relative to each other; empty lines are dropped. -/
theorem relay_line_events_amended (tr : List (Src × List Char))
    (h : ∀ e ∈ tr, e.2 = [] ∨ e.2.getLast? = some '\n') :
    ((relayEvents tr).filter (fun e => e.1 == Src.out)).map (fun e => e.2) =
      nonemptyLines (concatSrc Src.out tr) ∧
    ((relayEvents tr).filter (fun e => e.1 == Src.err)).map (fun e => e.2) =
      (nonemptyLines (concatSrc Src.err tr)).map
        (fun ln => "[stderr] ".toList ++ ln) := by
  induction tr with
  | nil => exact ⟨by decide, by decide⟩
  | cons e tr ih =>
    obtain ⟨ih1, ih2⟩ := ih (fun x hx => h x (by simp [hx]))
    obtain ⟨src, chunk⟩ := e
    have hc := h (src, chunk) (by simp)
    simp only at hc
    cases src with
    | out =>
      constructor
      · rw [relayEvents, List.filter_append, List.map_append, ih1, concatSrc]
        rw [if_pos rfl, nonemptyLines_append chunk _ hc]
        congr 1
        simp only [chunkEvents, nonemptyLines]
        rw [List.filter_map]
        simp [Function.comp]
      · rw [relayEvents, List.filter_append, List.map_append, ih2, concatSrc]
        rw [if_neg (by simp), List.nil_append]
        have hz : (chunkEvents (Src.out, chunk)).filter (fun e => e.1 == Src.err) = [] := by
          simp only [chunkEvents]
          rw [List.filter_map]
          simp [Function.comp]
        rw [hz]
        simp
    | err =>
      constructor
      · rw [relayEvents, List.filter_append, List.map_append, ih1, concatSrc]
        rw [if_neg (by simp), List.nil_append]
        have hz : (chunkEvents (Src.err, chunk)).filter (fun e => e.1 == Src.out) = [] := by
          simp only [chunkEvents]
          rw [List.filter_map]
          simp [Function.comp]
        rw [hz]
        simp
      · rw [relayEvents, List.filter_append, List.map_append, ih2, concatSrc]
        rw [if_pos rfl, nonemptyLines_append chunk _ hc]
        rw [List.map_append]
        congr 1
        simp only [chunkEvents, nonemptyLines]
        rw [List.filter_map]
        simp [Function.comp]

/-- Witness for C7 (amended) at a concrete chunk trace. -/
theorem relay_line_events_amended_witness :
    ((relayEvents [(Src.out, "a\nb\n".toList), (Src.err, "e\n".toList)]).filter
        (fun e => e.1 == Src.out)).map (fun e => e.2) =
      nonemptyLines (concatSrc Src.out
        [(Src.out, "a\nb\n".toList), (Src.err, "e\n".toList)]) ∧
    ((relayEvents [(Src.out, "a\nb\n".toList), (Src.err, "e\n".toList)]).filter
        (fun e => e.1 == Src.err)).map (fun e => e.2) =
      (nonemptyLines (concatSrc Src.err
        [(Src.out, "a\nb\n".toList), (Src.err, "e\n".toList)])).map
          (fun ln => "[stderr] ".toList ++ ln) :=
  relay_line_events_amended
    [(Src.out, "a\nb\n".toList), (Src.err, "e\n".toList)] (by decide)

end WebAdb
